import Mathlib

/-!
Verification of the encrypted-session synchronization engine of the
decentralized chat application.

The development shallowly embeds the TypeScript source:
pure functions become Lean functions, byte buffers become `List Nat`
(each entry below 256), JS strings become `List Char` where character
content matters and `String` where only equality matters, and code that
may throw returns `Option` or `Except`.  Randomness (the fresh AES-GCM
nonce) and the network oracle (Gun reads) are passed as explicit
parameters.  Browser capabilities that the repository only calls
(`crypto.subtle`, `TextEncoder`/`TextDecoder`, `btoa`/`atob`,
`localStorage`) are modelled from the specification at their interface.
-/

namespace DChat

/-! ## Base64 codec

`arrayBufferToB64` / `b64ToArrayBuffer` in `src/services/cryptoService.ts`
are thin loops around the browser primitives `btoa` / `atob`.
Modelled from the spec: the composition is standard RFC 4648 base64 over
byte buffers; `atob` on malformed input throws, modelled by `Option`. -/

/-- The base64 alphabet: sextet value to character. -/
def b64Char (n : Nat) : Char :=
  if n < 26 then Char.ofNat (65 + n)
  else if n < 52 then Char.ofNat (71 + n)
  else if n < 62 then Char.ofNat (n - 4)
  else if n = 62 then '+'
  else '/'

/-- Inverse of the base64 alphabet. -/
def b64CharDec (c : Char) : Option Nat :=
  let n := c.toNat
  if 65 ≤ n ∧ n ≤ 90 then some (n - 65)
  else if 97 ≤ n ∧ n ≤ 122 then some (n - 71)
  else if 48 ≤ n ∧ n ≤ 57 then some (n + 4)
  else if n = 43 then some 62
  else if n = 47 then some 63
  else none

/-- `arrayBufferToB64` (cryptoService.ts): bytes to a base64 string. -/
def arrayBufferToB64 : List Nat → List Char
  | [] => []
  | [a] => [b64Char (a / 4), b64Char (a % 4 * 16), '=', '=']
  | [a, b] => [b64Char (a / 4), b64Char (a % 4 * 16 + b / 16), b64Char (b % 16 * 4), '=']
  | a :: b :: d :: rest =>
      b64Char (a / 4) :: b64Char (a % 4 * 16 + b / 16) :: b64Char (b % 16 * 4 + d / 64) ::
        b64Char (d % 64) :: arrayBufferToB64 rest

/-- `b64ToArrayBuffer` (cryptoService.ts): base64 string back to bytes;
`none` models the exception `atob` raises on malformed input. -/
def b64ToArrayBuffer : List Char → Option (List Nat)
  | [] => some []
  | c1 :: c2 :: c3 :: c4 :: rest =>
    if c3 = '=' ∧ c4 = '=' ∧ rest = [] then do
      let s1 ← b64CharDec c1
      let s2 ← b64CharDec c2
      some [s1 * 4 + s2 / 16]
    else if c4 = '=' ∧ rest = [] then do
      let s1 ← b64CharDec c1
      let s2 ← b64CharDec c2
      let s3 ← b64CharDec c3
      some [s1 * 4 + s2 / 16, s2 % 16 * 16 + s3 / 4]
    else do
      let s1 ← b64CharDec c1
      let s2 ← b64CharDec c2
      let s3 ← b64CharDec c3
      let s4 ← b64CharDec c4
      let tail ← b64ToArrayBuffer rest
      some ((s1 * 4 + s2 / 16) :: (s2 % 16 * 16 + s3 / 4) :: (s3 % 4 * 64 + s4) :: tail)
  | _ => none

/-! ## UTF-8 codec

`textToArrayBuffer` / `arrayBufferToText` (cryptoService.ts) wrap
`TextEncoder` / `TextDecoder`.  Modelled from the spec: standard UTF-8.
`TextDecoder` in its default mode substitutes U+FFFD on malformed input
rather than throwing; the model returns `none` there instead, which is
never reached on well-formed input (the only kind these claims touch). -/

/-- UTF-8 encoding of a single Unicode scalar value. -/
def utf8EncodeChar (c : Char) : List Nat :=
  let n := c.toNat
  if n < 128 then [n]
  else if n < 2048 then [192 + n / 64, 128 + n % 64]
  else if n < 65536 then [224 + n / 4096, 128 + n / 64 % 64, 128 + n % 64]
  else [240 + n / 262144, 128 + n / 4096 % 64, 128 + n / 64 % 64, 128 + n % 64]

/-- `textToArrayBuffer`: UTF-8 encode a string. -/
def textToArrayBuffer (s : List Char) : List Nat :=
  s.flatMap utf8EncodeChar

/-- Is a byte a UTF-8 continuation byte?  The out-of-range default 256
used below makes a missing byte fail this check. -/
def isContByte (b : Nat) : Bool := 128 ≤ b && b < 192

/-- `arrayBufferToText`: UTF-8 decode a byte buffer. -/
def arrayBufferToText : List Nat → Option (List Char)
  | [] => some []
  | b :: rest =>
    if b < 128 then
      (arrayBufferToText rest).bind fun tail => some (Char.ofNat b :: tail)
    else if b < 192 then none
    else if b < 224 then
      if isContByte (rest.getD 0 256) then
        (arrayBufferToText (rest.drop 1)).bind fun tail =>
          some (Char.ofNat ((b - 192) * 64 + (rest.getD 0 256 - 128)) :: tail)
      else none
    else if b < 240 then
      if isContByte (rest.getD 0 256) && isContByte (rest.getD 1 256) then
        (arrayBufferToText (rest.drop 2)).bind fun tail =>
          some (Char.ofNat ((b - 224) * 4096 + (rest.getD 0 256 - 128) * 64 +
            (rest.getD 1 256 - 128)) :: tail)
      else none
    else
      if isContByte (rest.getD 0 256) && isContByte (rest.getD 1 256) &&
          isContByte (rest.getD 2 256) then
        (arrayBufferToText (rest.drop 3)).bind fun tail =>
          some (Char.ofNat ((b - 240) * 262144 + (rest.getD 0 256 - 128) * 4096 +
            (rest.getD 1 256 - 128) * 64 + (rest.getD 2 256 - 128)) :: tail)
      else none
  termination_by l => l.length
  decreasing_by all_goals (simp [List.length_drop]; try omega)

/-! ## Authenticated encryption

Modelled from the spec: `crypto.subtle.encrypt/decrypt` with AES-GCM is
an opaque browser capability ("authenticated symmetric encrypt/decrypt
given a key, nonce, and byte payload", spec section 6).  The model is an
idealized authenticated stream cipher: the body is the plaintext XORed
with a keystream determined by key and nonce, and an authentication tag
is appended (as `subtle.encrypt` appends the GCM tag to the ciphertext).
The tag here is a key- and nonce-dependent checksum that provably
detects every single-bit modification, an idealization of the GCM tag
whose forgeries are only negligibly probable rather than impossible. -/

/-- Keystream byte `i` for a given key and nonce. -/
def keystreamByte (key iv : List Nat) (i : Nat) : Nat :=
  (key.sum + iv.sum + i) % 256

/-- XOR a buffer against the keystream, starting at stream position `i`. -/
def xorKeystream (key iv : List Nat) : Nat → List Nat → List Nat
  | _, [] => []
  | i, b :: bs => (b ^^^ keystreamByte key iv i) :: xorKeystream key iv (i + 1) bs

/-- Authentication tag over the ciphertext body (one-byte checksum model
of the 16-byte GCM tag). -/
def computeTag (key iv body : List Nat) : Nat :=
  (key.sum + iv.sum + body.sum) % 256

/-- Ideal AES-GCM encryption: ciphertext body with the tag appended. -/
def aesGcmEncrypt (key iv pt : List Nat) : List Nat :=
  let body := xorKeystream key iv 0 pt
  body ++ [computeTag key iv body]

/-- Ideal AES-GCM decryption: verify the tag, then undo the keystream.
`none` models the exception `subtle.decrypt` throws on tag mismatch. -/
def aesGcmDecrypt (key iv ct : List Nat) : Option (List Nat) :=
  match ct.getLast? with
  | none => none
  | some tg =>
    if tg = computeTag key iv ct.dropLast then some (xorKeystream key iv 0 ct.dropLast)
    else none

/-- The `{ ct, iv }` pair returned by `encryptMessage`. -/
structure EncPair where
  ct : List Char
  iv : List Char
deriving DecidableEq

/-- `cryptoService.encryptMessage`: UTF-8 encode the plaintext, encrypt it
under the shared key with a fresh 12-byte nonce (passed explicitly here,
since `crypto.getRandomValues` is the caller's randomness), and base64
both ciphertext and nonce. -/
def encryptMessage (sharedKey iv : List Nat) (plaintext : List Char) : EncPair :=
  { ct := arrayBufferToB64 (aesGcmEncrypt sharedKey iv (textToArrayBuffer plaintext)),
    iv := arrayBufferToB64 iv }

/-- `cryptoService.decryptMessage`: base64-decode nonce and ciphertext,
decrypt, UTF-8 decode.  The source wraps the body in try/catch and
rethrows `Error("Failed to decrypt message")`; the model returns `none`
for that failure. -/
def decryptMessage (sharedKey : List Nat) (ct_b64 iv_b64 : List Char) : Option (List Char) :=
  match b64ToArrayBuffer iv_b64 with
  | none => none
  | some iv =>
    match b64ToArrayBuffer ct_b64 with
    | none => none
    | some ciphertext =>
      match aesGcmDecrypt sharedKey iv ciphertext with
      | none => none
      | some decrypted => arrayBufferToText decrypted

/-- Flip bit `j` of byte `i` of a buffer (identity when `i` is out of
range); the single-bit modification the tamper-detection claim ranges
over. -/
def flipBit : List Nat → Nat → Nat → List Nat
  | [], _, _ => []
  | b :: bs, 0, j => (b ^^^ 2 ^ j) :: bs
  | b :: bs, i + 1, j => b :: flipBit bs i j

/-! ## Message stream reconciler (`src/components/Chat.tsx`)

`handleMessage` receives `(msg, key)` callbacks from the Gun feed,
deduplicates by the replica-assigned entry key (both through the
`renderedMessageKeys` set and the `prev.some` check inside the state
updater) and re-sorts the working set by timestamp with JS
`Array.prototype.sort`, which ES2019 requires to be stable. -/

/-- A chat message as stored in component state (`ChatMessage` plus the
replica-assigned `_key`; the field is named `key` here). -/
structure ChatMessage where
  key : String
  sender : String
  ct : Option (List Char)
  iv : Option (List Char)
  timestamp : Nat
  text : Option (List Char)
  isFile : Bool
deriving DecidableEq

/-- Insert `x` after every element whose timestamp is less than or equal
to `x`'s. -/
def insertAfterLe (x : ChatMessage) : List ChatMessage → List ChatMessage
  | [] => [x]
  | y :: ys => if y.timestamp ≤ x.timestamp then y :: insertAfterLe x ys else x :: y :: ys

/-- `[...prev, fullMsg].sort((a, b) => a.timestamp - b.timestamp)`:
a stable sort by ascending timestamp (left-to-right insertion after
equal elements is stable, as ES2019 requires of `Array.prototype.sort`). -/
def sortByTimestamp (l : List ChatMessage) : List ChatMessage :=
  l.foldl (fun acc x => insertAfterLe x acc) []

/-- Reconciler state: the `renderedMessageKeys` ref and the `messages`
state. -/
structure RState where
  renderedKeys : List String
  messages : List ChatMessage
deriving DecidableEq

/-- `handleMessage` (Chat.tsx): skip null keys and already-seen keys,
otherwise record the key, append the message (tagged with its key) and
re-sort the whole working set by timestamp. -/
def handleMessage (st : RState) (key : String) (msg : ChatMessage) : RState :=
  if key = "" ∨ key ∈ st.renderedKeys then st
  else
    let fullMsg := { msg with key := key }
    { renderedKeys := key :: st.renderedKeys,
      messages :=
        if st.messages.any (fun m => m.key == key) then st.messages
        else sortByTimestamp (st.messages ++ [fullMsg]) }

/-- Deliver a sequence of `(key, msg)` feed callbacks to the reconciler. -/
def runReconciler (st : RState) (evs : List (String × ChatMessage)) : RState :=
  evs.foldl (fun s e => handleMessage s e.1 e.2) st

/-- The reconciler state right after the messages effect ran for a fresh
channel: `setMessages(cachedMessages)` plus marking each cached key as
rendered. -/
def hydrateFromCache (cached : List ChatMessage) : RState :=
  { renderedKeys := cached.map (fun m => m.key), messages := cached }

/-- The empty reconciler state (`setMessages([])`, cleared key set). -/
def emptyRState : RState := { renderedKeys := [], messages := [] }

/-- The events that survive the reconciler's key guards: first occurrence
of each non-empty key, in arrival order. -/
def dedupByKey : List String → List (String × ChatMessage) → List (String × ChatMessage)
  | _, [] => []
  | seen, (k, m) :: evs =>
    if k = "" ∨ k ∈ seen then dedupByKey seen evs
    else (k, m) :: dedupByKey (k :: seen) evs

/-- Tag a delivered payload with its replica-assigned key, as
`{ ...msg, _key: key }` does. -/
def mkFull (e : String × ChatMessage) : ChatMessage := { e.2 with key := e.1 }

/-- A minimal delivered payload carrying only a timestamp, for concrete
ordering scenarios. -/
def msgAt (t : Nat) : ChatMessage :=
  { key := "", sender := "alice", ct := none, iv := none, timestamp := t,
    text := none, isFile := false }

/-! ## Channel lifecycle (`src/components/Chat.tsx` messages effect)

Modelled from the spec: the single-threaded cooperative schedule is a
sequence of atomic events; `gun.map().on(handler)` / `gun.map().off()`
are the subscribe/unsubscribe boundary of section 6, so after `off()` the
store invokes no further callbacks — a delivery event reaches the handler
only while its channel is the subscribed one.  Selecting a contact runs
the previous effect's cleanup (`off`) and then the new effect body
(`setMessages([])`, clear the key set, hydrate the channel's cache,
subscribe); logging out unmounts the component. -/

/-- UI-level state: which chat feed is subscribed, and the reconciler
state rendered for it. -/
structure SysState where
  subscribedChat : Option String
  channel : RState
deriving DecidableEq

/-- Events of the cooperative schedule. -/
inductive UiEvent where
  | selectChat (chatId : String)
  | deliver (chatId : String) (key : String) (msg : ChatMessage)
  | logout
deriving DecidableEq

/-- One scheduler step; `cache` is the per-channel durable message cache
read at hydration. -/
def stepUi (cache : String → List ChatMessage) (s : SysState) : UiEvent → SysState
  | .selectChat c => { subscribedChat := some c, channel := hydrateFromCache (cache c) }
  | .deliver c k m =>
      if s.subscribedChat = some c then { s with channel := handleMessage s.channel k m }
      else s
  | .logout => { subscribedChat := none, channel := emptyRState }

/-- Run a schedule of UI events. -/
def runUi (cache : String → List ChatMessage) (s : SysState) (evs : List UiEvent) : SysState :=
  evs.foldl (stepUi cache) s

/-! ## Key directory lookup (`src/services/gunService.ts`)

`fetchPartnerPubKey` races each `gun...once` read against a timeout and
retries with multiplicative backoff.  The Gun read is an oracle
`Nat → Option String` giving the outcome of attempt `i` (`none` for
timeout/undefined/null, `some s` for a delivered value; the code treats
undefined, null and the empty string as misses).  The JSON.parse of a
string result is an external decoder and is modelled as the identity.
Timers are explicit: the trace records the timeout armed for each
attempt and every backoff wait performed. -/

/-- `delayMs = Math.min(2000, Math.round(delayMs * 1.2))`, in exact
decimal arithmetic: `(12 * d + 5) / 10` is round-half-up of `1.2 * d`,
which is what the float expression evaluates to for these magnitudes. -/
def nextDelay (d : Nat) : Nat := min 2000 ((12 * d + 5) / 10)

/-- `setTimeout(..., Math.max(900, Math.floor(delayMs / 2)))`. -/
def attemptTimeout (d : Nat) : Nat := max 900 (d / 2)

/-- `res !== undefined && res !== null && res !== ''`. -/
def validPubKeyRes : Option String → Bool
  | some s => s != ""
  | none => false

/-- Observable outcome of a `fetchPartnerPubKey` call: the value (or
`none` for not-found), the timeout armed for each attempt made, and the
backoff waits performed between attempts. -/
structure FetchTrace where
  result : Option String
  timeouts : List Nat
  waits : List Nat
deriving DecidableEq

/-- The retry loop of `fetchPartnerPubKey`: `i` is the attempt index,
the second argument the remaining attempts, `d` the current `delayMs`. -/
def fetchPartnerPubKeyGo (oracle : Nat → Option String) : Nat → Nat → Nat → FetchTrace
  | _, 0, _ => { result := none, timeouts := [], waits := [] }
  | i, r + 1, d =>
    let t := attemptTimeout d
    let res := oracle i
    if validPubKeyRes res then { result := res, timeouts := [t], waits := [] }
    else
      let rest := fetchPartnerPubKeyGo oracle (i + 1) r (nextDelay d)
      { result := rest.result, timeouts := t :: rest.timeouts, waits := d :: rest.waits }

/-- `fetchPartnerPubKey(partnerUsername, retries = 5, delayMs = 700)`. -/
def fetchPartnerPubKey (oracle : Nat → Option String) : FetchTrace :=
  fetchPartnerPubKeyGo oracle 0 5 700

/-! ## Channel identifiers (`src/services/gunService.ts`) -/

/-- The character class `[a-zA-Z0-9_-]` of `sanitizeForChatId` (and of
the username validation regex in `handleNewChatSubmit`). -/
def isSafeChar (c : Char) : Bool :=
  (97 ≤ c.toNat && c.toNat ≤ 122) || (65 ≤ c.toNat && c.toNat ≤ 90) ||
    (48 ≤ c.toNat && c.toNat ≤ 57) || c.toNat == 95 || c.toNat == 45

/-- `username.replace(/[^a-zA-Z0-9_-]/g, '')`. -/
def sanitizeForChatId (username : List Char) : List Char :=
  username.filter isSafeChar

/-- JS default string comparison (lexicographic by code unit), as used by
`Array.prototype.sort()` without a comparator; the restricted username
alphabet is below the surrogate range, so code-unit and code-point order
agree. -/
def lexLe : List Char → List Char → Bool
  | [], _ => true
  | _ :: _, [] => false
  | a :: as, b :: bs =>
    if a.toNat < b.toNat then true
    else if b.toNat < a.toNat then false
    else lexLe as bs

/-- `[x, y].sort().join(':')`. -/
def chatIdOf (x y : List Char) : List Char :=
  if lexLe x y then x ++ ':' :: y else y ++ ':' :: x

/-- `createChatLink` (gunService.ts): sanitize both usernames, refuse the
link (returning `undefined`, and registering nothing) when either
becomes empty, otherwise compute the sorted, colon-joined channel id.
The two `gun...set(chatId)` registrations are remote-replica effects
outside this state model; the returned identifier is what both effects
register. -/
def createChatLink (currentUser partnerUsername : List Char) : Option (List Char) :=
  let safeCurrent := sanitizeForChatId currentUser
  let safePartner := sanitizeForChatId partnerUsername
  if safeCurrent.isEmpty || safePartner.isEmpty then none
  else some (chatIdOf safeCurrent safePartner)

/-- `handleNewChatSubmit` (Chat.tsx), as the status message the user is
shown: validation guards, then the directory lookup (not-found is the
`PartnerNotFound` surface), then link creation; the empty status means
the chat was opened. -/
def handleNewChatSubmit (currentUser trimmed : List Char)
    (oracle : Nat → Option String) : String :=
  if trimmed = [] then "Please enter a username."
  else if trimmed = currentUser then "You cannot chat with yourself."
  else if !trimmed.all isSafeChar then "Invalid username format."
  else
    match (fetchPartnerPubKey oracle).result with
    | none => "User not found. Please check the username and try again."
    | some _ =>
      match createChatLink currentUser trimmed with
      | some _ => ""
      | none => "Failed to create chat. Please try again."

/-! ## Local durable cache (`src/services/userCache.ts`)

Modelled from the spec at the storage boundary: `localStorage` is a
key/value map whose `setItem` throws `QuotaExceededError` when the store
would exceed its capacity (`Except.error ()` here; it is the only
exception the model raises, matching the `e?.name ===
'QuotaExceededError'` discrimination).  `JSON.stringify`/`JSON.parse`
are modelled as the identity on structured records. -/

/-- A parsed cache record: the user record, a contact-list record or a
per-channel message-list record, each carrying `updatedAt`. -/
inductive CacheVal where
  | userRec (username : String) (pubKey : String) (encryptedPrivKey : String) (updatedAt : Nat)
  | contactsRec (contacts : List (String × String)) (updatedAt : Nat)
  | messagesRec (messages : List ChatMessage) (updatedAt : Nat)
deriving DecidableEq

/-- The `updatedAt` eviction timestamp of a record. -/
def CacheVal.updatedAt : CacheVal → Nat
  | .userRec _ _ _ t => t
  | .contactsRec _ t => t
  | .messagesRec _ t => t

/-- Size model for the serialized record, for the quota check. -/
def valSize : CacheVal → Nat
  | .userRec u p e _ => u.length + p.length + e.length + 1
  | .contactsRec cs _ => cs.length + 1
  | .messagesRec ms _ => ms.length + 1

/-- The browser-local durable store. -/
structure LocalStorage where
  entries : List (String × CacheVal)
  capacity : Nat
deriving DecidableEq

/-- Total serialized size of the stored entries. -/
def storeSize (es : List (String × CacheVal)) : Nat :=
  (es.map (fun e => e.1.length + valSize e.2)).sum

/-- `storage.setItem(k, v)`: replace or add, throwing quota-exceeded when
the result would not fit. -/
def setItem (st : LocalStorage) (k : String) (v : CacheVal) : Except Unit LocalStorage :=
  let entries := (st.entries.filter (fun e => e.1 != k)) ++ [(k, v)]
  if storeSize entries ≤ st.capacity then .ok { st with entries := entries }
  else .error ()

/-- `storage.getItem(k)` (with the parse step). -/
def getItem (st : LocalStorage) (k : String) : Option CacheVal :=
  (st.entries.find? (fun e => e.1 == k)).map (fun e => e.2)

/-- `storage.removeItem(k)`. -/
def removeItem (st : LocalStorage) (k : String) : LocalStorage :=
  { st with entries := st.entries.filter (fun e => e.1 != k) }

/-- `` `dchat_user_${username}` ``. -/
def buildKey (username : String) : String := "dchat_user_" ++ username

/-- The eviction scan of `saveUserToCache`: first candidate
`userKeys[0]` with `oldestTime = Infinity` (`none` here), updated
whenever a readable record has a strictly older `updatedAt`. -/
def findOldestKey (st : LocalStorage) (keys : List String) : String :=
  (keys.foldl
    (fun acc k =>
      match getItem st k with
      | some v =>
        match acc.2 with
        | none => (k, some v.updatedAt)
        | some t => if v.updatedAt < t then (k, some v.updatedAt) else acc
      | none => acc)
    (keys.headD "", none)).1

/-- `saveUserToCache`: try the write; on quota-exceeded, evict the
least-recently-updated `dchat_user_` record and retry once, rethrowing
the original error when there is nothing to evict or the retry fails
(the retry sits inside the cleanup try/catch, after which `throw e`
runs). -/
def saveUserToCache (st : LocalStorage) (username pubKey encryptedPrivKey : String)
    (now : Nat) : Except Unit LocalStorage :=
  let record := CacheVal.userRec username pubKey encryptedPrivKey now
  match setItem st (buildKey username) record with
  | .ok st1 => .ok st1
  | .error e =>
    let userKeys := (st.entries.map (fun en => en.1)).filter
      (fun k => k.startsWith "dchat_user_")
    if userKeys.isEmpty then .error e
    else
      let oldestKey := findOldestKey st userKeys
      let st1 := removeItem st oldestKey
      match setItem st1 (buildKey username) record with
      | .ok st2 => .ok st2
      | .error _ => .error e

/-- `saveContactsToCache`: quota-exceeded is caught and only logged; the
function always returns. -/
def saveContactsToCache (st : LocalStorage) (username : String)
    (contacts : List (String × String)) (now : Nat) : LocalStorage :=
  match setItem st ("dchat_chats_" ++ username) (.contactsRec contacts now) with
  | .ok st1 => st1
  | .error _ => st

/-- `parsed.updatedAt || 0` for a message-cache key (unreadable entries
count as time 0). -/
def cacheTimeOf (st : LocalStorage) (k : String) : Nat :=
  match getItem st k with
  | some v => v.updatedAt
  | none => 0

/-- Stable ascending insertion for `(key, time)` pairs, modelling the
`sort((a, b) => a.time - b.time)` of the eviction scan. -/
def insertByTime (x : String × Nat) : List (String × Nat) → List (String × Nat)
  | [] => [x]
  | y :: ys => if y.2 ≤ x.2 then y :: insertByTime x ys else x :: y :: ys

/-- Stable sort of `(key, time)` pairs by ascending time. -/
def sortKeyTimes (l : List (String × Nat)) : List (String × Nat) :=
  l.foldl (fun acc x => insertByTime x acc) []

/-- `saveMessagesToCache`: try the write; on quota-exceeded, when more
than 10 channel caches exist, evict the oldest 20% (at least one) and
retry, every failure being caught; otherwise return with the write
skipped.  No path throws. -/
def saveMessagesToCache (st : LocalStorage) (chatId : String)
    (messages : List ChatMessage) (now : Nat) : LocalStorage :=
  let cacheKey := "dchat_messages_" ++ chatId
  match setItem st cacheKey (.messagesRec messages now) with
  | .ok st1 => st1
  | .error _ =>
    let messageKeys := (st.entries.map (fun en => en.1)).filter
      (fun k => k.startsWith "dchat_messages_")
    if messageKeys.length > 10 then
      let keyTimes := sortKeyTimes (messageKeys.map (fun k => (k, cacheTimeOf st k)))
      let toRemove := max 1 (messageKeys.length / 5)
      let st1 := (keyTimes.take toRemove).foldl (fun s kt => removeItem s kt.1) st
      match setItem st1 cacheKey (.messagesRec messages now) with
      | .ok st2 => st2
      | .error _ => st1
    else st

/-! ## Message rendering (`src/components/Chat.tsx` `MessageItem` and
`src/components/ChatWindow.tsx` feed callback)

Both renderers are embedded as the text eventually shown for a message;
`keyOf`/`sharedKey` stand for the derived shared key (`getSharedKey` is
total here; a key-derivation failure takes the same catch branch as a
decryption failure).  JS truthiness of an optional string field checks
both presence and non-emptiness. -/

/-- JS truthiness of an optional string field. -/
def strTruthy : Option (List Char) → Bool
  | some s => !s.isEmpty
  | none => false

/-- `MessageItem` (Chat.tsx) for text messages: a sender's own message
with an echoed plaintext renders it directly; otherwise the ciphertext
is decrypted with the shared key for the partner (own message) or the
sender; a decryption failure renders the sentinel.  `none` is the
still-pending "Decrypting..." placeholder (file messages render no text
bubble). -/
def renderMessageItem (currentUser partner : String) (keyOf : String → List Nat)
    (msg : ChatMessage) : Option String :=
  let isMe := msg.sender == currentUser
  if msg.isFile then none
  else if isMe && strTruthy msg.text then some (String.mk (msg.text.getD []))
  else
    let partnerForKey := if isMe then partner else msg.sender
    if strTruthy msg.ct && strTruthy msg.iv then
      match decryptMessage (keyOf partnerForKey) (msg.ct.getD []) (msg.iv.getD []) with
      | some pt => some (String.mk pt)
      | none => some "🔒 [Decryption Failed]"
    else none

/-- The `listenForMessages` callback of ChatWindow.tsx: decrypt whenever
ciphertext and nonce are present (sentinel on failure), otherwise accept
the optimistic plaintext only from the viewing user themself, otherwise
render the empty string. -/
def renderChatWindowMessage (username : String) (sharedKey : List Nat)
    (msg : ChatMessage) : String :=
  if strTruthy msg.ct && strTruthy msg.iv then
    match decryptMessage sharedKey (msg.ct.getD []) (msg.iv.getD []) with
    | some pt => String.mk pt
    | none => "[Failed to decrypt]"
  else if strTruthy msg.text && (msg.sender == username) then String.mk (msg.text.getD [])
  else ""

/-! ## Codec lemmas -/

set_option maxRecDepth 8000

theorem b64CharDec_b64Char : ∀ n, n < 64 → b64CharDec (b64Char n) = some n := by decide

theorem b64Char_ne_eq : ∀ n, n < 64 → b64Char n ≠ '=' := by decide

theorem b64_dec2 (c1 c2 : Char) :
    b64ToArrayBuffer [c1, c2, '=', '='] =
      (b64CharDec c1).bind (fun s1 => (b64CharDec c2).bind (fun s2 =>
        some [s1 * 4 + s2 / 16])) := by
  simp [b64ToArrayBuffer]

theorem b64_dec3 (c1 c2 c3 : Char) (h : c3 ≠ '=') :
    b64ToArrayBuffer [c1, c2, c3, '='] =
      (b64CharDec c1).bind (fun s1 => (b64CharDec c2).bind (fun s2 =>
        (b64CharDec c3).bind (fun s3 =>
          some [s1 * 4 + s2 / 16, s2 % 16 * 16 + s3 / 4]))) := by
  simp [b64ToArrayBuffer, h]

theorem b64_dec4 (c1 c2 c3 c4 : Char) (rest : List Char) (h : c4 ≠ '=') :
    b64ToArrayBuffer (c1 :: c2 :: c3 :: c4 :: rest) =
      (b64CharDec c1).bind (fun s1 => (b64CharDec c2).bind (fun s2 =>
        (b64CharDec c3).bind (fun s3 => (b64CharDec c4).bind (fun s4 =>
          (b64ToArrayBuffer rest).bind (fun tail =>
            some ((s1 * 4 + s2 / 16) :: (s2 % 16 * 16 + s3 / 4) ::
              (s3 % 4 * 64 + s4) :: tail)))))) := by
  simp [b64ToArrayBuffer, h]

theorem b64_roundtrip : ∀ bs : List Nat, (∀ b ∈ bs, b < 256) →
    b64ToArrayBuffer (arrayBufferToB64 bs) = some bs := by
  intro bs
  induction bs using arrayBufferToB64.induct with
  | case1 => intro _; rfl
  | case2 a =>
    intro h
    have ha : a < 256 := h a (by simp)
    simp only [arrayBufferToB64]
    rw [b64_dec2, b64CharDec_b64Char _ (by omega), b64CharDec_b64Char _ (by omega)]
    simp only [Option.some_bind, Option.some.injEq, List.cons.injEq, and_true]
    omega
  | case3 a b =>
    intro h
    have ha : a < 256 := h a (by simp)
    have hb : b < 256 := h b (by simp)
    simp only [arrayBufferToB64]
    rw [b64_dec3 _ _ _ (b64Char_ne_eq _ (by omega)), b64CharDec_b64Char _ (by omega),
      b64CharDec_b64Char _ (by omega), b64CharDec_b64Char _ (by omega)]
    simp only [Option.some_bind, Option.some.injEq, List.cons.injEq, and_true]
    omega
  | case4 a b d rest ih =>
    intro h
    have ha : a < 256 := h a (by simp)
    have hb : b < 256 := h b (by simp)
    have hd : d < 256 := h d (by simp)
    have hrest : ∀ x ∈ rest, x < 256 := fun x hx => h x (by simp [hx])
    simp only [arrayBufferToB64]
    rw [b64_dec4 _ _ _ _ _ (b64Char_ne_eq _ (by omega)), b64CharDec_b64Char _ (by omega),
      b64CharDec_b64Char _ (by omega), b64CharDec_b64Char _ (by omega),
      b64CharDec_b64Char _ (by omega), ih hrest]
    simp only [Option.some_bind, Option.some.injEq, List.cons.injEq, and_true]
    omega

theorem char_toNat_lt (c : Char) : c.toNat < 1114112 := by
  have h := c.valid
  show c.val.toNat < 1114112
  rcases h with h | h
  · omega
  · omega

theorem utf8EncodeChar_lt (c : Char) : ∀ b ∈ utf8EncodeChar c, b < 256 := by
  have h := char_toNat_lt c
  intro b hb
  simp only [utf8EncodeChar] at hb
  split_ifs at hb <;> simp only [List.mem_cons, List.mem_singleton,
    List.not_mem_nil, or_false] at hb <;> omega

theorem textToArrayBuffer_lt (s : List Char) : ∀ b ∈ textToArrayBuffer s, b < 256 := by
  intro b hb
  simp only [textToArrayBuffer, List.mem_flatMap] at hb
  obtain ⟨c, _, hbc⟩ := hb
  exact utf8EncodeChar_lt c b hbc

theorem arrayBufferToText_cons (c : Char) (bs : List Nat) :
    arrayBufferToText (utf8EncodeChar c ++ bs) =
      (arrayBufferToText bs).map (fun t => c :: t) := by
  have hlt := char_toNat_lt c
  have hofNat := Char.ofNat_toNat c
  simp only [utf8EncodeChar]
  by_cases h1 : c.toNat < 128
  · simp only [h1, ite_true, List.cons_append, List.nil_append]
    rw [arrayBufferToText]
    simp only [h1, ite_true]
    rw [hofNat]
    cases arrayBufferToText bs <;> rfl
  · by_cases h2 : c.toNat < 2048
    · simp only [h1, h2, ite_false, ite_true, List.cons_append, List.nil_append]
      have e1 : ¬ (192 + c.toNat / 64 < 128) := by omega
      have e2 : ¬ (192 + c.toNat / 64 < 192) := by omega
      have e3 : 192 + c.toNat / 64 < 224 := by omega
      rw [arrayBufferToText]
      have e4 : isContByte (128 + c.toNat % 64) = true := by
        simp only [isContByte, Bool.and_eq_true, decide_eq_true_eq]
        omega
      simp only [e1, e2, e3, e4, ite_false, ite_true, List.getD_cons_zero, List.drop_succ_cons,
        List.drop_zero]
      have e5 : (192 + c.toNat / 64 - 192) * 64 + (128 + c.toNat % 64 - 128) = c.toNat := by
        omega
      rw [e5, hofNat]
      cases arrayBufferToText bs <;> rfl
    · by_cases h3 : c.toNat < 65536
      · simp only [h1, h2, h3, ite_false, ite_true, List.cons_append, List.nil_append]
        have e1 : ¬ (224 + c.toNat / 4096 < 128) := by omega
        have e2 : ¬ (224 + c.toNat / 4096 < 192) := by omega
        have e3 : ¬ (224 + c.toNat / 4096 < 224) := by omega
        have e4 : 224 + c.toNat / 4096 < 240 := by omega
        rw [arrayBufferToText]
        have e5 : isContByte (128 + c.toNat / 64 % 64) = true := by
          simp only [isContByte, Bool.and_eq_true, decide_eq_true_eq]
          omega
        have e6 : isContByte (128 + c.toNat % 64) = true := by
          simp only [isContByte, Bool.and_eq_true, decide_eq_true_eq]
          omega
        simp only [e1, e2, e3, e4, e5, e6, ite_false, ite_true, Bool.and_self,
          List.getD_cons_succ, List.getD_cons_zero, List.drop_succ_cons, List.drop_zero]
        have e7 : (224 + c.toNat / 4096 - 224) * 4096 + (128 + c.toNat / 64 % 64 - 128) * 64 +
            (128 + c.toNat % 64 - 128) = c.toNat := by omega
        rw [e7, hofNat]
        cases arrayBufferToText bs <;> rfl
      · simp only [h1, h2, h3, ite_false, ite_true, List.cons_append, List.nil_append]
        have e1 : ¬ (240 + c.toNat / 262144 < 128) := by omega
        have e2 : ¬ (240 + c.toNat / 262144 < 192) := by omega
        have e3 : ¬ (240 + c.toNat / 262144 < 224) := by omega
        have e4 : ¬ (240 + c.toNat / 262144 < 240) := by omega
        rw [arrayBufferToText]
        have e5 : isContByte (128 + c.toNat / 4096 % 64) = true := by
          simp only [isContByte, Bool.and_eq_true, decide_eq_true_eq]
          omega
        have e6 : isContByte (128 + c.toNat / 64 % 64) = true := by
          simp only [isContByte, Bool.and_eq_true, decide_eq_true_eq]
          omega
        have e7 : isContByte (128 + c.toNat % 64) = true := by
          simp only [isContByte, Bool.and_eq_true, decide_eq_true_eq]
          omega
        simp only [e1, e2, e3, e4, e5, e6, e7, ite_false, ite_true, Bool.and_self,
          List.getD_cons_succ, List.getD_cons_zero, List.drop_succ_cons, List.drop_zero]
        have e8 : (240 + c.toNat / 262144 - 240) * 262144 +
            (128 + c.toNat / 4096 % 64 - 128) * 4096 +
            (128 + c.toNat / 64 % 64 - 128) * 64 + (128 + c.toNat % 64 - 128) = c.toNat := by
          omega
        rw [e8, hofNat]
        cases arrayBufferToText bs <;> rfl

theorem utf8_roundtrip (s : List Char) :
    arrayBufferToText (textToArrayBuffer s) = some s := by
  induction s with
  | nil => simp [textToArrayBuffer, arrayBufferToText]
  | cons c cs ih =>
    simp only [textToArrayBuffer, List.flatMap_cons] at *
    rw [arrayBufferToText_cons, ih]
    rfl

/-! ## Ideal AEAD lemmas -/

theorem xorKeystream_lt (key iv : List Nat) : ∀ (bs : List Nat) (i : Nat),
    (∀ b ∈ bs, b < 256) → ∀ b ∈ xorKeystream key iv i bs, b < 256 := by
  intro bs
  induction bs with
  | nil => intro i _ b hb; simp [xorKeystream] at hb
  | cons x xs ih =>
    intro i h b hb
    simp only [xorKeystream, List.mem_cons] at hb
    rcases hb with hb | hb
    · subst hb
      have hx : x < 256 := h x (by simp)
      have hk : keystreamByte key iv i < 256 := Nat.mod_lt _ (by omega)
      have : x ^^^ keystreamByte key iv i < 2 ^ 8 :=
        Nat.xor_lt_two_pow (by omega) (by omega)
      omega
    · exact ih (i + 1) (fun y hy => h y (by simp [hy])) b hb

theorem xorKeystream_involutive (key iv : List Nat) : ∀ (bs : List Nat) (i : Nat),
    xorKeystream key iv i (xorKeystream key iv i bs) = bs := by
  intro bs
  induction bs with
  | nil => intro i; rfl
  | cons x xs ih =>
    intro i
    simp only [xorKeystream, List.cons.injEq]
    refine ⟨?_, ih (i + 1)⟩
    rw [Nat.xor_assoc, Nat.xor_self, Nat.xor_zero]

theorem aesGcm_roundtrip (key iv pt : List Nat) :
    aesGcmDecrypt key iv (aesGcmEncrypt key iv pt) = some pt := by
  simp only [aesGcmEncrypt, aesGcmDecrypt, List.getLast?_concat, List.dropLast_concat,
    ite_true]
  rw [xorKeystream_involutive]

theorem aesGcmEncrypt_lt (key iv pt : List Nat) (h : ∀ b ∈ pt, b < 256) :
    ∀ b ∈ aesGcmEncrypt key iv pt, b < 256 := by
  intro b hb
  simp only [aesGcmEncrypt, List.mem_append, List.mem_singleton] at hb
  rcases hb with hb | hb
  · exact xorKeystream_lt key iv pt 0 h b hb
  · subst hb
    exact Nat.mod_lt _ (by omega)

/-- C1: for every shared key and plaintext (and every well-formed random
nonce), `decryptMessage` applied to the `{ct, iv}` pair produced by
`encryptMessage` returns exactly the original plaintext. -/
theorem C1_encrypt_decrypt_roundtrip :
    ∀ (key iv : List Nat) (P : List Char), (∀ b ∈ iv, b < 256) →
      decryptMessage key (encryptMessage key iv P).ct (encryptMessage key iv P).iv = some P := by
  intro key iv P hiv
  simp only [encryptMessage, decryptMessage, b64_roundtrip iv hiv,
    b64_roundtrip _ (aesGcmEncrypt_lt key iv _ (textToArrayBuffer_lt P)),
    aesGcm_roundtrip, utf8_roundtrip]

/-- Witness for C1 at a concrete key, nonce and plaintext. -/
theorem C1_encrypt_decrypt_roundtrip_witness :
    (∀ b ∈ [0, 1, 2, 3, 4, 5, 6, 7, 8, 9, 10, 11], b < 256) ∧
      decryptMessage [7, 200]
        (encryptMessage [7, 200] [0, 1, 2, 3, 4, 5, 6, 7, 8, 9, 10, 11] ['h', 'i']).ct
        (encryptMessage [7, 200] [0, 1, 2, 3, 4, 5, 6, 7, 8, 9, 10, 11] ['h', 'i']).iv =
        some ['h', 'i'] :=
  ⟨by decide, C1_encrypt_decrypt_roundtrip [7, 200] [0, 1, 2, 3, 4, 5, 6, 7, 8, 9, 10, 11]
    ['h', 'i'] (by decide)⟩

/-! ## Tamper detection lemmas -/

theorem xor_pow_delta : ∀ b, b < 256 → ∀ j, j < 8 →
    (b ^^^ 2 ^ j = b + 2 ^ j) ∨ (b = (b ^^^ 2 ^ j) + 2 ^ j) := by decide

theorem two_pow_lt_256 (j : Nat) (hj : j < 8) : 2 ^ j < 256 := by
  calc 2 ^ j < 2 ^ 8 := Nat.pow_lt_pow_right (by omega) hj
  _ = 256 := by norm_num

theorem flipBit_length : ∀ (bs : List Nat) (i j : Nat), (flipBit bs i j).length = bs.length := by
  intro bs
  induction bs with
  | nil => intro i j; rfl
  | cons x xs ih =>
    intro i j
    cases i with
    | zero => rfl
    | succ i => simp [flipBit, ih i j]

theorem flipBit_lt (j : Nat) (hj : j < 8) : ∀ (bs : List Nat) (i : Nat),
    (∀ b ∈ bs, b < 256) → ∀ b ∈ flipBit bs i j, b < 256 := by
  intro bs
  induction bs with
  | nil => intro i _ b hb; simp [flipBit] at hb
  | cons x xs ih =>
    intro i h b hb
    cases i with
    | zero =>
      simp only [flipBit, List.mem_cons] at hb
      rcases hb with hb | hb
      · subst hb
        have hx : x < 256 := h x (by simp)
        have : x ^^^ 2 ^ j < 2 ^ 8 := Nat.xor_lt_two_pow (by omega)
          (by have := two_pow_lt_256 j hj; omega)
        omega
      · exact h b (by simp [hb])
    | succ i =>
      simp only [flipBit, List.mem_cons] at hb
      rcases hb with hb | hb
      · subst hb; exact h b (by simp)
      · exact ih i (fun y hy => h y (by simp [hy])) b hb

theorem flipBit_sum_ne (j : Nat) (hj : j < 8) : ∀ (bs : List Nat) (i : Nat),
    i < bs.length → (∀ b ∈ bs, b < 256) →
    ¬ ((flipBit bs i j).sum % 256 = bs.sum % 256) := by
  have hp1 : 0 < 2 ^ j := Nat.pos_pow_of_pos j (by omega)
  have hp2 : 2 ^ j < 256 := two_pow_lt_256 j hj
  intro bs
  induction bs with
  | nil => intro i hi; simp at hi
  | cons x xs ih =>
    intro i hi h
    cases i with
    | zero =>
      simp only [flipBit, List.sum_cons]
      have hx : x < 256 := h x (by simp)
      rcases xor_pow_delta x hx j hj with hd | hd <;> omega
    | succ i =>
      simp only [flipBit, List.sum_cons]
      have hih := ih i (by simp at hi; omega) (fun y hy => h y (by simp [hy]))
      omega

theorem flipBit_append_left : ∀ (l1 l2 : List Nat) (i j : Nat), i < l1.length →
    flipBit (l1 ++ l2) i j = flipBit l1 i j ++ l2 := by
  intro l1
  induction l1 with
  | nil => intro l2 i j hi; simp at hi
  | cons x xs ih =>
    intro l2 i j hi
    cases i with
    | zero => rfl
    | succ i =>
      simp only [List.cons_append, flipBit, List.cons.injEq, true_and]
      exact ih l2 i j (by simp at hi; omega)

theorem flipBit_append_last : ∀ (l1 : List Nat) (x j : Nat),
    flipBit (l1 ++ [x]) l1.length j = l1 ++ [x ^^^ 2 ^ j] := by
  intro l1
  induction l1 with
  | nil => intro x j; rfl
  | cons y ys ih =>
    intro x j
    simp only [List.cons_append, List.length_cons, flipBit, List.cons.injEq, true_and]
    exact ih x j

theorem aesGcmEncrypt_ne_nil (key iv pt : List Nat) : aesGcmEncrypt key iv pt ≠ [] := by
  simp [aesGcmEncrypt]

theorem arrayBufferToB64_ne_nil : ∀ bs : List Nat, bs ≠ [] → arrayBufferToB64 bs ≠ [] := by
  intro bs h
  cases bs with
  | nil => exact absurd rfl h
  | cons a rest =>
    cases rest with
    | nil => simp [arrayBufferToB64]
    | cons b rest2 =>
      cases rest2 with
      | nil => simp [arrayBufferToB64]
      | cons d rest3 => simp [arrayBufferToB64]

theorem aesGcmDecrypt_flip_ct (key iv pt : List Nat) (i j : Nat)
    (hi : i < (aesGcmEncrypt key iv pt).length) (hj : j < 8) (hpt : ∀ b ∈ pt, b < 256) :
    aesGcmDecrypt key iv (flipBit (aesGcmEncrypt key iv pt) i j) = none := by
  have hbody : ∀ b ∈ xorKeystream key iv 0 pt, b < 256 := xorKeystream_lt key iv pt 0 hpt
  have hlen : (aesGcmEncrypt key iv pt).length = (xorKeystream key iv 0 pt).length + 1 := by
    simp [aesGcmEncrypt]
  by_cases hcase : i < (xorKeystream key iv 0 pt).length
  · rw [show flipBit (aesGcmEncrypt key iv pt) i j =
      flipBit (xorKeystream key iv 0 pt) i j ++ [computeTag key iv (xorKeystream key iv 0 pt)]
      from flipBit_append_left _ _ i j hcase]
    simp only [aesGcmDecrypt, List.getLast?_concat, List.dropLast_concat]
    rw [if_neg]
    intro hc
    have hs := flipBit_sum_ne j hj (xorKeystream key iv 0 pt) i hcase hbody
    simp only [computeTag] at hc
    omega
  · have hieq : i = (xorKeystream key iv 0 pt).length := by omega
    rw [show flipBit (aesGcmEncrypt key iv pt) i j =
      xorKeystream key iv 0 pt ++ [computeTag key iv (xorKeystream key iv 0 pt) ^^^ 2 ^ j] by
        rw [hieq]; exact flipBit_append_last _ _ j]
    simp only [aesGcmDecrypt, List.getLast?_concat, List.dropLast_concat]
    rw [if_neg]
    intro hc
    have htag : computeTag key iv (xorKeystream key iv 0 pt) < 256 := by
      simp only [computeTag]; omega
    have hp1 : 0 < 2 ^ j := Nat.pos_pow_of_pos j (by omega)
    rcases xor_pow_delta _ htag j hj with hd | hd <;> omega

theorem aesGcmDecrypt_flip_iv (key iv pt : List Nat) (i j : Nat)
    (hi : i < iv.length) (hj : j < 8) (hiv : ∀ b ∈ iv, b < 256) :
    aesGcmDecrypt key (flipBit iv i j) (aesGcmEncrypt key iv pt) = none := by
  simp only [aesGcmEncrypt, aesGcmDecrypt, List.getLast?_concat, List.dropLast_concat]
  rw [if_neg]
  intro hc
  have hs := flipBit_sum_ne j hj iv i hi hiv
  simp only [computeTag] at hc
  omega

theorem flipBit_ne_nil (bs : List Nat) (i j : Nat) (h : bs ≠ []) : flipBit bs i j ≠ [] := by
  intro hc
  have := flipBit_length bs i j
  rw [hc] at this
  cases bs with
  | nil => exact h rfl
  | cons x xs => simp at this

/-- C2: flipping any single bit of a valid ciphertext (body or tag) or
of the nonce makes `decryptMessage` fail with the decryption-failure
error rather than return any plaintext, and the rendering caller shows
the sentinel text for that message instead of crashing. -/
theorem C2_bit_flip_fails :
    ∀ (key iv : List Nat) (P : List Char) (i j : Nat) (user sender : String),
      (∀ b ∈ iv, b < 256) → j < 8 →
      ((i < (aesGcmEncrypt key iv (textToArrayBuffer P)).length →
        decryptMessage key
          (arrayBufferToB64 (flipBit (aesGcmEncrypt key iv (textToArrayBuffer P)) i j))
          (encryptMessage key iv P).iv = none
        ∧ (iv ≠ [] →
          renderChatWindowMessage user key
            { key := "", sender := sender,
              ct := some (arrayBufferToB64
                (flipBit (aesGcmEncrypt key iv (textToArrayBuffer P)) i j)),
              iv := some (arrayBufferToB64 iv), timestamp := 0, text := none,
              isFile := false } = "[Failed to decrypt]"))
      ∧ (i < iv.length →
        decryptMessage key (encryptMessage key iv P).ct
          (arrayBufferToB64 (flipBit iv i j)) = none)) := by
  intro key iv P i j user sender hiv hj
  have hptlt := textToArrayBuffer_lt P
  have henclt := aesGcmEncrypt_lt key iv _ hptlt
  constructor
  · intro hi
    have hflt : ∀ b ∈ flipBit (aesGcmEncrypt key iv (textToArrayBuffer P)) i j, b < 256 :=
      flipBit_lt j hj _ i henclt
    have hdec : decryptMessage key
        (arrayBufferToB64 (flipBit (aesGcmEncrypt key iv (textToArrayBuffer P)) i j))
        (encryptMessage key iv P).iv = none := by
      simp only [encryptMessage, decryptMessage, b64_roundtrip iv hiv,
        b64_roundtrip _ hflt, aesGcmDecrypt_flip_ct key iv _ i j hi hj hptlt]
    refine ⟨hdec, fun hivne => ?_⟩
    have hctne : arrayBufferToB64 (flipBit (aesGcmEncrypt key iv (textToArrayBuffer P)) i j)
        ≠ [] :=
      arrayBufferToB64_ne_nil _ (flipBit_ne_nil _ i j (aesGcmEncrypt_ne_nil key iv _))
    have hivb64ne : arrayBufferToB64 iv ≠ [] := arrayBufferToB64_ne_nil iv hivne
    simp only [renderChatWindowMessage, strTruthy, Option.getD_some]
    rw [if_pos (by simp [List.isEmpty_iff, hctne, hivb64ne])]
    simp only [encryptMessage] at hdec
    rw [hdec]
  · intro hi
    have hflt : ∀ b ∈ flipBit iv i j, b < 256 := flipBit_lt j hj iv i hiv
    simp only [encryptMessage, decryptMessage, b64_roundtrip _ hflt,
      b64_roundtrip _ henclt, aesGcmDecrypt_flip_iv key iv _ i j hi hj hiv]

/-- Witness for C2 at a concrete key, nonce, plaintext and bit position. -/
theorem C2_bit_flip_fails_witness :
    decryptMessage [7]
      (arrayBufferToB64
        (flipBit (aesGcmEncrypt [7] [0, 1, 2, 3, 4, 5, 6, 7, 8, 9, 10, 11]
          (textToArrayBuffer ['h', 'i'])) 0 0))
      (encryptMessage [7] [0, 1, 2, 3, 4, 5, 6, 7, 8, 9, 10, 11] ['h', 'i']).iv = none
    ∧ decryptMessage [7]
      (encryptMessage [7] [0, 1, 2, 3, 4, 5, 6, 7, 8, 9, 10, 11] ['h', 'i']).ct
      (arrayBufferToB64 (flipBit [0, 1, 2, 3, 4, 5, 6, 7, 8, 9, 10, 11] 0 0)) = none :=
  ⟨((C2_bit_flip_fails [7] [0, 1, 2, 3, 4, 5, 6, 7, 8, 9, 10, 11] ['h', 'i'] 0 0 "u" "s"
      (by decide) (by decide)).1 (by decide)).1,
    (C2_bit_flip_fails [7] [0, 1, 2, 3, 4, 5, 6, 7, 8, 9, 10, 11] ['h', 'i'] 0 0 "u" "s"
      (by decide) (by decide)).2 (by decide)⟩

/-! ## Reconciler lemmas -/

theorem sortByTimestamp_append_one (l : List ChatMessage) (x : ChatMessage) :
    sortByTimestamp (l ++ [x]) = insertAfterLe x (sortByTimestamp l) := by
  simp [sortByTimestamp, List.foldl_append]

theorem insertAfterLe_perm (x : ChatMessage) : ∀ l : List ChatMessage,
    (insertAfterLe x l).Perm (x :: l) := by
  intro l
  induction l with
  | nil => exact List.Perm.refl _
  | cons y ys ih =>
    simp only [insertAfterLe]
    by_cases h : y.timestamp ≤ x.timestamp
    · rw [if_pos h]
      exact (ih.cons y).trans (List.Perm.swap x y ys)
    · rw [if_neg h]

theorem insertAfterLe_of_all_le (x : ChatMessage) : ∀ l : List ChatMessage,
    (∀ y ∈ l, y.timestamp ≤ x.timestamp) → insertAfterLe x l = l ++ [x] := by
  intro l
  induction l with
  | nil => intro _; rfl
  | cons y ys ih =>
    intro h
    simp only [insertAfterLe, List.cons_append]
    rw [if_pos (h y (by simp)), ih (fun z hz => h z (by simp [hz]))]

theorem sortByTimestamp_of_sorted : ∀ l : List ChatMessage,
    List.Pairwise (fun a b => a.timestamp ≤ b.timestamp) l → sortByTimestamp l = l := by
  intro l
  induction l using List.reverseRecOn with
  | nil => intro _; rfl
  | append_singleton ys x ih =>
    intro h
    rw [List.pairwise_append] at h
    rw [sortByTimestamp_append_one, ih h.1,
      insertAfterLe_of_all_le x ys (fun y hy => h.2.2 y hy x (by simp))]

theorem insertAfterLe_sorted (x : ChatMessage) : ∀ l : List ChatMessage,
    List.Pairwise (fun a b => a.timestamp ≤ b.timestamp) l →
    List.Pairwise (fun a b => a.timestamp ≤ b.timestamp) (insertAfterLe x l) := by
  intro l
  induction l with
  | nil => intro _; simp [insertAfterLe]
  | cons y ys ih =>
    intro h
    rw [List.pairwise_cons] at h
    simp only [insertAfterLe]
    by_cases hle : y.timestamp ≤ x.timestamp
    · rw [if_pos hle, List.pairwise_cons]
      refine ⟨?_, ih h.2⟩
      intro z hz
      have := (insertAfterLe_perm x ys).mem_iff.mp hz
      rcases List.mem_cons.mp this with hzx | hzys
      · subst hzx; exact hle
      · exact h.1 z hzys
    · rw [if_neg hle, List.pairwise_cons]
      refine ⟨?_, List.Pairwise.cons h.1 h.2⟩
      intro z hz
      rcases List.mem_cons.mp hz with hzy | hzys
      · subst hzy; omega
      · have := h.1 z hzys; omega

theorem insertAfterLe_filter_ne (x : ChatMessage) (t : Nat) (hne : x.timestamp ≠ t) :
    ∀ l : List ChatMessage,
    (insertAfterLe x l).filter (fun m => m.timestamp == t) =
      l.filter (fun m => m.timestamp == t) := by
  intro l
  induction l with
  | nil => simp [insertAfterLe, hne]
  | cons y ys ih =>
    simp only [insertAfterLe]
    by_cases hle : y.timestamp ≤ x.timestamp
    · rw [if_pos hle]
      by_cases hyt : y.timestamp = t
      · simp only [List.filter_cons, hyt, beq_self_eq_true, ite_true, if_pos]
        rw [ih]
      · simp only [List.filter_cons]
        rw [if_neg (by simp [hyt]), if_neg (by simp [hyt]), ih]
    · rw [if_neg hle]
      simp only [List.filter_cons]
      rw [if_neg (by simp [hne])]

theorem insertAfterLe_filter_eq (x : ChatMessage) : ∀ l : List ChatMessage,
    List.Pairwise (fun a b => a.timestamp ≤ b.timestamp) l →
    (insertAfterLe x l).filter (fun m => m.timestamp == x.timestamp) =
      l.filter (fun m => m.timestamp == x.timestamp) ++ [x] := by
  intro l
  induction l with
  | nil => simp [insertAfterLe]
  | cons y ys ih =>
    intro h
    rw [List.pairwise_cons] at h
    simp only [insertAfterLe]
    by_cases hle : y.timestamp ≤ x.timestamp
    · rw [if_pos hle]
      by_cases hyt : y.timestamp = x.timestamp
      · simp only [List.filter_cons, hyt, beq_self_eq_true, ite_true, if_pos]
        rw [ih h.2]
        rfl
      · simp only [List.filter_cons]
        rw [if_neg (by simp [hyt]), if_neg (by simp [hyt]), ih h.2]
    · rw [if_neg hle]
      have hnolater : ys.filter (fun m => m.timestamp == x.timestamp) = [] := by
        rw [List.filter_eq_nil_iff]
        intro z hz
        have := h.1 z hz
        simp only [beq_iff_eq]
        omega
      have hynot : ¬ (y.timestamp == x.timestamp) = true := by
        simp only [beq_iff_eq]
        omega
      simp only [List.filter_cons]
      rw [if_pos (by simp), if_neg hynot, hnolater]
      simp

theorem runReconciler_nil (st : RState) : runReconciler st [] = st := rfl

theorem runReconciler_cons (st : RState) (k : String) (m : ChatMessage)
    (evs : List (String × ChatMessage)) :
    runReconciler st ((k, m) :: evs) = runReconciler (handleMessage st k m) evs := rfl

theorem reconciler_invariant :
    ∀ (evs : List (String × ChatMessage)) (st : RState),
      List.Pairwise (fun a b => a.timestamp ≤ b.timestamp) st.messages →
      (∀ k, k ∈ st.messages.map (fun m => m.key) ↔ k ∈ st.renderedKeys) →
      (st.messages.map (fun m => m.key)).Nodup →
      (List.Pairwise (fun a b => a.timestamp ≤ b.timestamp) (runReconciler st evs).messages
      ∧ (∀ k, k ∈ (runReconciler st evs).messages.map (fun m => m.key) ↔
          k ∈ (runReconciler st evs).renderedKeys)
      ∧ ((runReconciler st evs).messages.map (fun m => m.key)).Nodup
      ∧ (∀ t, (runReconciler st evs).messages.filter (fun m => m.timestamp == t) =
          st.messages.filter (fun m => m.timestamp == t) ++
            ((dedupByKey st.renderedKeys evs).map mkFull).filter (fun m => m.timestamp == t))
      ∧ (∀ k, k ∈ st.renderedKeys → k ∈ (runReconciler st evs).renderedKeys)
      ∧ (∀ k m, (k, m) ∈ evs → k ≠ "" → k ∈ (runReconciler st evs).renderedKeys)) := by
  intro evs
  induction evs with
  | nil =>
    intro st hsort hkeys hnodup
    refine ⟨hsort, hkeys, hnodup, ?_, fun k hk => hk, by simp⟩
    intro t
    simp [dedupByKey, runReconciler_nil]
  | cons e evs ih =>
    intro st hsort hkeys hnodup
    obtain ⟨k, m⟩ := e
    rw [runReconciler_cons]
    by_cases hskip : k = "" ∨ k ∈ st.renderedKeys
    · have hstep : handleMessage st k m = st := by
        simp only [handleMessage]
        rw [if_pos hskip]
      rw [hstep]
      have ihst := ih st hsort hkeys hnodup
      have hded : dedupByKey st.renderedKeys ((k, m) :: evs) =
          dedupByKey st.renderedKeys evs := by
        simp only [dedupByKey]
        rw [if_pos hskip]
      refine ⟨ihst.1, ihst.2.1, ihst.2.2.1, ?_, ihst.2.2.2.2.1, ?_⟩
      · intro t
        rw [hded]
        exact ihst.2.2.2.1 t
      · intro k2 m2 hmem hk2
        rcases List.mem_cons.mp hmem with heq | hmem
        · injection heq with h1 h2
          subst h1
          rcases hskip with hk | hk
          · exact absurd hk hk2
          · exact ihst.2.2.2.2.1 k2 hk
        · exact ihst.2.2.2.2.2 k2 m2 hmem hk2
    · have hknil : ¬ k = "" := fun hc => hskip (Or.inl hc)
      have hknotin : ¬ k ∈ st.renderedKeys := fun hc => hskip (Or.inr hc)
      have hany : st.messages.any (fun mm => mm.key == k) = false := by
        rw [Bool.eq_false_iff]
        intro hc
        rw [List.any_eq_true] at hc
        obtain ⟨mm, hmm, hmmk⟩ := hc
        rw [beq_iff_eq] at hmmk
        exact hknotin ((hkeys k).mp (by
          rw [List.mem_map]
          exact ⟨mm, hmm, hmmk⟩))
      have hstep : handleMessage st k m =
          { renderedKeys := k :: st.renderedKeys,
            messages := insertAfterLe (mkFull (k, m)) st.messages } := by
        simp only [handleMessage]
        rw [if_neg hskip, hany]
        simp only [Bool.false_eq_true, ite_false]
        rw [sortByTimestamp_append_one, sortByTimestamp_of_sorted st.messages hsort]
        rfl
      rw [hstep]
      set full := mkFull (k, m) with hfull
      have hfullkey : full.key = k := rfl
      set st1 : RState := (⟨k :: st.renderedKeys, insertAfterLe full st.messages⟩ : RState)
        with hst1
      have hpermkeys : (st1.messages.map (fun mm => mm.key)).Perm
          (k :: st.messages.map (fun mm => mm.key)) := by
        have := (insertAfterLe_perm full st.messages).map (fun mm => mm.key)
        simpa [hfullkey] using this
      have hsort1 : List.Pairwise (fun a b => a.timestamp ≤ b.timestamp) st1.messages :=
        insertAfterLe_sorted full st.messages hsort
      have hkeys1 : ∀ k2, k2 ∈ st1.messages.map (fun mm => mm.key) ↔
          k2 ∈ st1.renderedKeys := by
        intro k2
        rw [hpermkeys.mem_iff]
        simp only [hst1, List.mem_cons]
        rw [hkeys k2]
      have hnodup1 : (st1.messages.map (fun mm => mm.key)).Nodup := by
        rw [hpermkeys.nodup_iff]
        exact List.Nodup.cons (fun hc => hknotin ((hkeys k).mp hc)) hnodup
      have ihst := ih st1 hsort1 hkeys1 hnodup1
      have hded : dedupByKey st.renderedKeys ((k, m) :: evs) =
          (k, m) :: dedupByKey (k :: st.renderedKeys) evs := by
        simp only [dedupByKey]
        rw [if_neg hskip]
      refine ⟨ihst.1, ihst.2.1, ihst.2.2.1, ?_, ?_, ?_⟩
      · intro t
        rw [hded]
        have hrun := ihst.2.2.2.1 t
        have hst1filter : st1.messages.filter (fun mm => mm.timestamp == t) =
            st.messages.filter (fun mm => mm.timestamp == t) ++
              List.filter (fun mm => mm.timestamp == t) [full] := by
          by_cases ht : full.timestamp = t
          · subst ht
            rw [show st1.messages = insertAfterLe full st.messages from rfl,
              insertAfterLe_filter_eq full st.messages hsort]
            simp
          · rw [show st1.messages = insertAfterLe full st.messages from rfl,
              insertAfterLe_filter_ne full t ht st.messages]
            simp [List.filter_cons, ht]
        rw [hrun, hst1filter]
        simp only [List.map_cons, List.filter_cons, List.filter_append, List.append_assoc,
          ← hfull]
        by_cases hift : (full.timestamp == t) = true <;> simp [hift]
      · intro k2 hk2
        have : k2 ∈ st1.renderedKeys := by simp [hst1, hk2]
        exact ihst.2.2.2.2.1 k2 this
      · intro k2 m2 hmem hk2
        rcases List.mem_cons.mp hmem with heq | hmem
        · injection heq with h1 h2
          subst h1
          exact ihst.2.2.2.2.1 k2 (by simp [hst1])
        · exact ihst.2.2.2.2.2 k2 m2 hmem hk2

/-- C3: whatever the arrival order, the rendered timeline is sorted by
ascending timestamp; entries sharing a timestamp keep their
insertion-into-the-merge order (the per-timestamp slice of the timeline
equals the per-timestamp slice of the deduplicated arrival sequence);
and in particular arrivals timestamped [300, 100, 200] render as
[100, 200, 300]. -/
theorem C3_timeline_ordering :
    (∀ evs, List.Pairwise (fun a b => a.timestamp ≤ b.timestamp)
      (runReconciler emptyRState evs).messages)
    ∧ (∀ evs t, (runReconciler emptyRState evs).messages.filter (fun m => m.timestamp == t) =
        ((dedupByKey [] evs).map mkFull).filter (fun m => m.timestamp == t))
    ∧ ((runReconciler emptyRState
        [("a", msgAt 300), ("b", msgAt 100), ("c", msgAt 200)]).messages.map
          (fun m => m.timestamp) = [100, 200, 300]) := by
  have hbase : ∀ evs, List.Pairwise (fun a b => a.timestamp ≤ b.timestamp)
        (runReconciler emptyRState evs).messages
      ∧ (∀ t, (runReconciler emptyRState evs).messages.filter (fun m => m.timestamp == t) =
        ((dedupByKey [] evs).map mkFull).filter (fun m => m.timestamp == t)) := by
    intro evs
    have h := reconciler_invariant evs emptyRState (by simp [emptyRState])
      (by simp [emptyRState]) (by simp [emptyRState])
    refine ⟨h.1, fun t => ?_⟩
    have := h.2.2.2.1 t
    simpa [emptyRState] using this
  exact ⟨fun evs => (hbase evs).1, fun evs => (hbase evs).2, by decide⟩

/-- C4: delivering the same replica-assigned entry key any number of
times (with any payloads) leaves at most one rendered message under that
key, and exactly one when the key was delivered at all; the no-duplicate
invariant holds from cache hydration through every callback. -/
theorem C4_deduplication :
    ∀ (cached : List ChatMessage) (evs : List (String × ChatMessage)) (k : String),
      List.Pairwise (fun a b => a.timestamp ≤ b.timestamp) cached →
      (cached.map (fun m => m.key)).Nodup →
      (((runReconciler (hydrateFromCache cached) evs).messages.map
          (fun m => m.key)).count k ≤ 1
      ∧ (k ≠ "" → (∃ m, (k, m) ∈ evs) →
        ((runReconciler (hydrateFromCache cached) evs).messages.map
          (fun m => m.key)).count k = 1)) := by
  intro cached evs k hsort hnodup
  have h := reconciler_invariant evs (hydrateFromCache cached) hsort (by simp [hydrateFromCache])
    hnodup
  constructor
  · exact List.nodup_iff_count_le_one.mp h.2.2.1 k
  · intro hkne hex
    obtain ⟨m, hm⟩ := hex
    have hkin : k ∈ (runReconciler (hydrateFromCache cached) evs).renderedKeys :=
      h.2.2.2.2.2 k m hm hkne
    have hkmem : k ∈ (runReconciler (hydrateFromCache cached) evs).messages.map
        (fun mm => mm.key) := (h.2.1 k).mpr hkin
    exact List.count_eq_one_of_mem h.2.2.1 hkmem

/-- Witness for C4: the same key delivered twice renders exactly once. -/
theorem C4_deduplication_witness :
    ((runReconciler (hydrateFromCache []) [("k1", msgAt 5), ("k1", msgAt 6)]).messages.map
      (fun m => m.key)).count "k1" = 1 :=
  (C4_deduplication [] [("k1", msgAt 5), ("k1", msgAt 6)] "k1" (by simp) (by simp)).2
    (by decide) ⟨msgAt 5, by simp⟩

/-! ## Key directory lookup lemmas -/

theorem fetchGo_step_fail (oracle : Nat → Option String) (i r d : Nat)
    (h : validPubKeyRes (oracle i) = false) :
    fetchPartnerPubKeyGo oracle i (r + 1) d =
      { result := (fetchPartnerPubKeyGo oracle (i + 1) r (nextDelay d)).result,
        timeouts := attemptTimeout d ::
          (fetchPartnerPubKeyGo oracle (i + 1) r (nextDelay d)).timeouts,
        waits := d :: (fetchPartnerPubKeyGo oracle (i + 1) r (nextDelay d)).waits } := by
  simp [fetchPartnerPubKeyGo, h]

theorem fetchGo_step_ok (oracle : Nat → Option String) (i r d : Nat)
    (h : validPubKeyRes (oracle i) = true) :
    fetchPartnerPubKeyGo oracle i (r + 1) d =
      { result := oracle i, timeouts := [attemptTimeout d], waits := [] } := by
  simp [fetchPartnerPubKeyGo, h]

theorem fetchGo_result_early (oracle : Nat → Option String) : ∀ (k r i d : Nat), k ≤ r →
    (∀ j, j < k → validPubKeyRes (oracle (i + j)) = false) →
    validPubKeyRes (oracle (i + k)) = true →
    (fetchPartnerPubKeyGo oracle i (r + 1) d).result = oracle (i + k) ∧
    (fetchPartnerPubKeyGo oracle i (r + 1) d).timeouts.length = k + 1 := by
  intro k
  induction k with
  | zero =>
    intro r i d _ _ hok
    simp only [Nat.add_zero] at hok
    rw [fetchGo_step_ok oracle i r d hok]
    simp
  | succ k ihk =>
    intro r i d hkr hfail hok
    have h0 : validPubKeyRes (oracle i) = false := by
      have := hfail 0 (by omega)
      simpa using this
    obtain ⟨r2, rfl⟩ : ∃ r2, r = r2 + 1 := ⟨r - 1, by omega⟩
    rw [fetchGo_step_fail oracle i (r2 + 1) d h0]
    have hfail2 : ∀ j, j < k → validPubKeyRes (oracle (i + 1 + j)) = false := by
      intro j hj
      have := hfail (j + 1) (by omega)
      have harg : i + (j + 1) = i + 1 + j := by omega
      rwa [harg] at this
    have hok2 : validPubKeyRes (oracle (i + 1 + k)) = true := by
      have harg : i + (k + 1) = i + 1 + k := by omega
      rwa [harg] at hok
    have hrec := ihk r2 (i + 1) (nextDelay d) (by omega) hfail2 hok2
    refine ⟨?_, ?_⟩
    · rw [hrec.1]
      congr 1
      omega
    · simp only [List.length_cons, hrec.2]

/-- C5: a directory entry that yields only empty reads makes exactly 5
attempts, each racing the read against an armed timeout, sleeping
between attempts with the multiplicative backoff 700, 840, 1008, 1210,
1452 (each update capped at 2000), and only then reports not-found;
a non-empty read at attempt k is returned with no further attempt; the
not-found result surfaces to the user as the user-not-found
(`PartnerNotFound`) status. -/
theorem C5_bounded_retry_lookup :
    (∀ oracle : Nat → Option String, (∀ i, i < 5 → validPubKeyRes (oracle i) = false) →
      fetchPartnerPubKey oracle =
        { result := none, timeouts := [900, 900, 900, 900, 900],
          waits := [700, 840, 1008, 1210, 1452] })
    ∧ (∀ d, nextDelay d ≤ 2000)
    ∧ (∀ (oracle : Nat → Option String) (k : Nat), k < 5 →
        (∀ i, i < k → validPubKeyRes (oracle i) = false) →
        validPubKeyRes (oracle k) = true →
        (fetchPartnerPubKey oracle).result = oracle k
        ∧ (fetchPartnerPubKey oracle).timeouts.length = k + 1)
    ∧ (∀ (cu trimmed : List Char) (oracle : Nat → Option String),
        trimmed ≠ [] → trimmed ≠ cu → trimmed.all isSafeChar = true →
        (fetchPartnerPubKey oracle).result = none →
        handleNewChatSubmit cu trimmed oracle =
          "User not found. Please check the username and try again.") := by
  refine ⟨?_, ?_, ?_, ?_⟩
  · intro oracle h
    have h0 := h 0 (by omega)
    have h1 := h 1 (by omega)
    have h2 := h 2 (by omega)
    have h3 := h 3 (by omega)
    have h4 := h 4 (by omega)
    show fetchPartnerPubKeyGo oracle 0 5 700 = _
    rw [show (5 : Nat) = 4 + 1 from rfl, fetchGo_step_fail oracle 0 4 700 h0]
    rw [show (0 : Nat) + 1 = 1 from rfl, show nextDelay 700 = 840 from rfl,
      show (4 : Nat) = 3 + 1 from rfl, fetchGo_step_fail oracle 1 3 840 h1]
    rw [show (1 : Nat) + 1 = 2 from rfl, show nextDelay 840 = 1008 from rfl,
      show (3 : Nat) = 2 + 1 from rfl, fetchGo_step_fail oracle 2 2 1008 h2]
    rw [show (2 : Nat) + 1 = 3 from rfl, show nextDelay 1008 = 1210 from rfl,
      show (2 : Nat) = 1 + 1 from rfl, fetchGo_step_fail oracle 3 1 1210 h3]
    rw [show (3 : Nat) + 1 = 4 from rfl, show nextDelay 1210 = 1452 from rfl,
      show (1 : Nat) = 0 + 1 from rfl, fetchGo_step_fail oracle 4 0 1452 h4]
    rfl
  · intro d
    simp only [nextDelay]
    omega
  · intro oracle k hk hfail hok
    have := fetchGo_result_early oracle k 4 0 700 (by omega)
      (by intro j hj; simpa using hfail j hj) (by simpa using hok)
    exact ⟨by rw [show fetchPartnerPubKey oracle = fetchPartnerPubKeyGo oracle 0 5 700 from rfl,
        show (5 : Nat) = 4 + 1 from rfl, this.1]; congr 1; omega,
      by rw [show fetchPartnerPubKey oracle = fetchPartnerPubKeyGo oracle 0 5 700 from rfl,
        show (5 : Nat) = 4 + 1 from rfl, this.2]⟩
  · intro cu trimmed oracle hne hncu hsafe hres
    simp only [handleNewChatSubmit, hres]
    rw [if_neg hne, if_neg hncu, if_neg (by simp [hsafe])]

/-- Witness for C5: an oracle that never answers exhausts all 5 attempts
and returns not-found with the expected backoff trace. -/
theorem C5_bounded_retry_lookup_witness :
    fetchPartnerPubKey (fun _ => none) =
      { result := none, timeouts := [900, 900, 900, 900, 900],
        waits := [700, 840, 1008, 1210, 1452] } :=
  C5_bounded_retry_lookup.1 (fun _ => none) (fun _ _ => rfl)

/-! ## Channel lifecycle -/

/-- C6: once a channel's subscription is torn down, feed callbacks for
it are no longer applied: a delivery for any channel other than the
subscribed one leaves the state untouched, and after switching to a new
channel an arbitrary burst of deliveries from other (stale) channels
leaves the new channel's rendered state exactly its hydrated cache. -/
theorem C6_teardown_no_stale_callbacks :
    (∀ (cache : String → List ChatMessage) (s : SysState) (c k : String) (m : ChatMessage),
      s.subscribedChat ≠ some c → stepUi cache s (.deliver c k m) = s)
    ∧ (∀ (cache : String → List ChatMessage) (s : SysState) (c : String)
        (evs : List UiEvent),
      (∀ e ∈ evs, ∃ c2 k m, e = UiEvent.deliver c2 k m ∧ c2 ≠ c) →
      runUi cache (stepUi cache s (.selectChat c)) evs =
        { subscribedChat := some c, channel := hydrateFromCache (cache c) }) := by
  constructor
  · intro cache s c k m h
    simp only [stepUi]
    rw [if_neg h]
  · intro cache s c evs h
    have haux : ∀ (evs2 : List UiEvent) (s0 : SysState), s0.subscribedChat = some c →
        (∀ e ∈ evs2, ∃ c2 k m, e = UiEvent.deliver c2 k m ∧ c2 ≠ c) →
        runUi cache s0 evs2 = s0 := by
      intro evs2
      induction evs2 with
      | nil => intro s0 _ _; rfl
      | cons e rest ih =>
        intro s0 hsub hall
        obtain ⟨c2, k, m, rfl, hne⟩ := hall e (by simp)
        have hstep : stepUi cache s0 (UiEvent.deliver c2 k m) = s0 := by
          simp only [stepUi]
          rw [if_neg]
          rw [hsub]
          simp only [Option.some.injEq]
          exact fun hcc => hne hcc.symm
        rw [show runUi cache s0 (UiEvent.deliver c2 k m :: rest) =
          runUi cache (stepUi cache s0 (UiEvent.deliver c2 k m)) rest from rfl, hstep]
        exact ih s0 hsub (fun e2 he2 => hall e2 (by simp [he2]))
    rw [haux evs (stepUi cache s (.selectChat c)) (by simp [stepUi]) h]
    rfl

/-- Witness for C6: a delivery for a torn-down channel is ignored, and a
stale delivery arriving after a switch leaves the new channel's state at
its hydrated cache. -/
theorem C6_teardown_no_stale_callbacks_witness :
    stepUi (fun _ => []) ⟨some "a:b", emptyRState⟩ (.deliver "x:y" "k" (msgAt 3)) =
      ⟨some "a:b", emptyRState⟩
    ∧ runUi (fun _ => []) (stepUi (fun _ => []) ⟨none, emptyRState⟩ (.selectChat "a:b"))
        [.deliver "x:y" "k" (msgAt 3)] =
      { subscribedChat := some "a:b", channel := hydrateFromCache ((fun _ => ([] : List ChatMessage)) "a:b") } :=
  ⟨C6_teardown_no_stale_callbacks.1 (fun _ => []) ⟨some "a:b", emptyRState⟩ "x:y" "k"
      (msgAt 3) (by simp),
    C6_teardown_no_stale_callbacks.2 (fun _ => []) ⟨none, emptyRState⟩ "a:b"
      [.deliver "x:y" "k" (msgAt 3)]
      (by
        intro e he
        simp only [List.mem_singleton] at he
        subst he
        exact ⟨"x:y", "k", msgAt 3, rfl, by simp⟩)⟩

/-! ## Durable cache quota handling -/

/-- C7 counterexample: on a storage whose every `setItem` raises
quota-exceeded and which holds no other user record, `saveUserToCache`
propagates the exception to its caller instead of catching it (the
source re-throws when eviction cannot help), so not every durable-cache
write site swallows the quota failure. -/
theorem C7_user_write_propagates_counterexample :
    saveUserToCache { entries := [], capacity := 0 } "alice" "pk" "sk" 5 =
      Except.error () := by rfl

/-- C7 as amended: the contact-list and message-list write sites catch
the quota failure and return normally (and, with at most 10 cached
channel message lists, leave storage exactly as if the write were
skipped), while the user-record write site propagates the quota error
whenever there is no other `dchat_user_` record to evict. -/
theorem C7_quota_handling_amended :
    (∀ (st : LocalStorage) (u : String) (cs : List (String × String)) (now : Nat),
      setItem st ("dchat_chats_" ++ u) (.contactsRec cs now) = Except.error () →
      saveContactsToCache st u cs now = st)
    ∧ (∀ (st : LocalStorage) (cid : String) (ms : List ChatMessage) (now : Nat),
      setItem st ("dchat_messages_" ++ cid) (.messagesRec ms now) = Except.error () →
      ¬ ((st.entries.map (fun en => en.1)).filter
          (fun k => k.startsWith "dchat_messages_")).length > 10 →
      saveMessagesToCache st cid ms now = st)
    ∧ (∀ (st : LocalStorage) (u p e : String) (now : Nat),
      setItem st (buildKey u) (.userRec u p e now) = Except.error () →
      ((st.entries.map (fun en => en.1)).filter
        (fun k => k.startsWith "dchat_user_")).isEmpty = true →
      saveUserToCache st u p e now = Except.error ()) := by
  refine ⟨?_, ?_, ?_⟩
  · intro st u cs now h
    simp only [saveContactsToCache, h]
  · intro st cid ms now h hlen
    simp only [saveMessagesToCache, h]
    rw [if_neg hlen]
  · intro st u p e now h hempty
    simp only [saveUserToCache, h, hempty]
    rfl

/-- Witness for the amended C7 on a concrete full storage. -/
theorem C7_quota_handling_amended_witness :
    saveContactsToCache { entries := [], capacity := 0 } "u" [] 5 =
      { entries := [], capacity := 0 }
    ∧ saveMessagesToCache { entries := [], capacity := 0 } "a:b" [] 5 =
      { entries := [], capacity := 0 }
    ∧ saveUserToCache { entries := [], capacity := 0 } "u" "p" "e" 5 = Except.error () :=
  ⟨C7_quota_handling_amended.1 { entries := [], capacity := 0 } "u" [] 5 (by rfl),
    C7_quota_handling_amended.2.1 { entries := [], capacity := 0 } "a:b" [] 5 (by rfl)
      (by decide),
    C7_quota_handling_amended.2.2 { entries := [], capacity := 0 } "u" "p" "e" 5 (by rfl)
      (by decide)⟩

/-! ## Plaintext echo is trusted only for the viewer -/

/-- C8: the sender-echoed plaintext field affects rendering only for the
viewer's own messages: for a message whose sender is not the viewing
user, both renderers produce identical output for any two values of the
echo field, the text being derived solely from the ciphertext. -/
theorem C8_echo_only_for_self :
    ∀ (cu partner : String) (keyOf : String → List Nat) (sharedKey : List Nat)
      (msg : ChatMessage) (t1 t2 : Option (List Char)),
      msg.sender ≠ cu →
      (renderMessageItem cu partner keyOf { msg with text := t1 } =
        renderMessageItem cu partner keyOf { msg with text := t2 }
      ∧ renderChatWindowMessage cu sharedKey { msg with text := t1 } =
        renderChatWindowMessage cu sharedKey { msg with text := t2 }) := by
  intro cu partner keyOf sharedKey msg t1 t2 h
  have hbeq : (msg.sender == cu) = false := by
    simp only [beq_eq_false_iff_ne, ne_eq]
    exact h
  constructor
  · simp only [renderMessageItem, hbeq, Bool.false_and, Bool.false_eq_true, ite_false]
  · simp only [renderChatWindowMessage, hbeq, Bool.and_false, Bool.false_eq_true, ite_false]

/-- Witness for C8: a received message renders the same whatever the
echoed plaintext says. -/
theorem C8_echo_only_for_self_witness :
    renderMessageItem "bob" "alice" (fun _ => [1])
        ⟨"k", "alice", none, none, 0, some ['x'], false⟩ =
      renderMessageItem "bob" "alice" (fun _ => [1])
        ⟨"k", "alice", none, none, 0, some ['y'], false⟩
    ∧ renderChatWindowMessage "bob" [1] ⟨"k", "alice", none, none, 0, some ['x'], false⟩ =
      renderChatWindowMessage "bob" [1] ⟨"k", "alice", none, none, 0, some ['y'], false⟩ :=
  C8_echo_only_for_self "bob" "alice" (fun _ => [1]) [1]
    ⟨"k", "alice", none, none, 0, some ['x'], false⟩ (some ['x']) (some ['y']) (by decide)

/-! ## Channel identifier lemmas -/

theorem char_eq_of_toNat_eq (a b : Char) (h : a.toNat = b.toNat) : a = b := by
  rw [← Char.ofNat_toNat a, ← Char.ofNat_toNat b, h]

theorem lexLe_total : ∀ a b : List Char, lexLe a b = true ∨ lexLe b a = true := by
  intro a
  induction a with
  | nil => intro b; left; rfl
  | cons x xs ih =>
    intro b
    cases b with
    | nil => right; rfl
    | cons y ys =>
      simp only [lexLe]
      by_cases hxy : x.toNat < y.toNat
      · left; rw [if_pos hxy]
      · by_cases hyx : y.toNat < x.toNat
        · right; rw [if_pos hyx]
        · rw [if_neg hxy, if_neg hyx, if_neg hyx, if_neg hxy]
          exact ih ys

theorem lexLe_antisymm : ∀ a b : List Char, lexLe a b = true → lexLe b a = true → a = b := by
  intro a
  induction a with
  | nil =>
    intro b _ hba
    cases b with
    | nil => rfl
    | cons y ys => simp [lexLe] at hba
  | cons x xs ih =>
    intro b hab hba
    cases b with
    | nil => simp [lexLe] at hab
    | cons y ys =>
      simp only [lexLe] at hab hba
      by_cases hxy : x.toNat < y.toNat
      · rw [if_neg (by omega), if_pos hxy] at hba
        exact absurd hba (by simp)
      · by_cases hyx : y.toNat < x.toNat
        · rw [if_neg hxy, if_pos hyx] at hab
          exact absurd hab (by simp)
        · rw [if_neg hxy, if_neg hyx] at hab
          rw [if_neg hyx, if_neg hxy] at hba
          rw [char_eq_of_toNat_eq x y (by omega), ih ys hab hba]

theorem append_colon_inj : ∀ (s1 : List Char) (t1 s2 t2 : List Char),
    ':' ∉ s1 → ':' ∉ t1 → s1 ++ ':' :: s2 = t1 ++ ':' :: t2 → s1 = t1 ∧ s2 = t2 := by
  intro s1
  induction s1 with
  | nil =>
    intro t1 s2 t2 _ ht1 heq
    cases t1 with
    | nil =>
      simp only [List.nil_append, List.cons.injEq] at heq
      exact ⟨rfl, heq.2⟩
    | cons y ys =>
      simp only [List.nil_append, List.cons_append, List.cons.injEq] at heq
      exact absurd (heq.1 ▸ List.mem_cons_self y ys) ht1
  | cons x xs ih =>
    intro t1 s2 t2 hs1 ht1 heq
    cases t1 with
    | nil =>
      simp only [List.cons_append, List.nil_append, List.cons.injEq] at heq
      exact absurd (heq.1 ▸ List.mem_cons_self x xs) hs1
    | cons y ys =>
      simp only [List.cons_append, List.cons.injEq] at heq
      have hrec := ih ys s2 t2 (fun hc => hs1 (List.mem_cons_of_mem x hc))
        (fun hc => ht1 (List.mem_cons_of_mem y hc)) heq.2
      exact ⟨by rw [heq.1, hrec.1], hrec.2⟩

theorem safeChar_ne_colon (c : Char) (h : isSafeChar c = true) : c ≠ ':' := by
  intro hc
  subst hc
  exact absurd h (by decide)

theorem safe_no_colon_mem (u : List Char) (h : u.all isSafeChar = true) : ':' ∉ u := by
  intro hc
  rw [List.all_eq_true] at h
  exact safeChar_ne_colon ':' (h ':' hc) rfl

/-- C9: the channel identifier is commutative (both parties compute the
same id independently), and on usernames over the restricted character
class it is collision-free: equal identifiers force equal unordered
pairs of usernames. -/
theorem C9_chatId_commutative_collision_free :
    (∀ a b : List Char, chatIdOf a b = chatIdOf b a)
    ∧ (∀ a b c d : List Char, a.all isSafeChar = true → b.all isSafeChar = true →
        c.all isSafeChar = true → d.all isSafeChar = true →
        chatIdOf a b = chatIdOf c d → (a = c ∧ b = d) ∨ (a = d ∧ b = c)) := by
  constructor
  · intro a b
    simp only [chatIdOf]
    by_cases hab : lexLe a b = true
    · by_cases hba : lexLe b a = true
      · rw [if_pos hab, if_pos hba, lexLe_antisymm a b hab hba]
      · rw [if_pos hab, if_neg hba]
    · rcases lexLe_total a b with h | h
      · exact absurd h hab
      · rw [if_neg hab, if_pos h]
  · intro a b c d ha hb hc hd heq
    have hna := safe_no_colon_mem a ha
    have hnb := safe_no_colon_mem b hb
    have hnc := safe_no_colon_mem c hc
    have hnd := safe_no_colon_mem d hd
    simp only [chatIdOf] at heq
    by_cases hab : lexLe a b = true <;> by_cases hcd : lexLe c d = true
    · rw [if_pos hab, if_pos hcd] at heq
      have := append_colon_inj a c b d hna hnc heq
      exact Or.inl this
    · rw [if_pos hab, if_neg hcd] at heq
      have := append_colon_inj a d b c hna hnd heq
      exact Or.inr this
    · rw [if_neg hab, if_pos hcd] at heq
      have := append_colon_inj b c a d hnb hnc heq
      exact Or.inr ⟨this.2, this.1⟩
    · rw [if_neg hab, if_neg hcd] at heq
      have := append_colon_inj b d a c hnb hnd heq
      exact Or.inl ⟨this.2, this.1⟩

/-- Witness for C9: concrete commutativity and collision-freedom
instances on alice/bob. -/
theorem C9_chatId_commutative_collision_free_witness :
    chatIdOf ['b', 'o', 'b'] ['a', 'l', 'i'] = chatIdOf ['a', 'l', 'i'] ['b', 'o', 'b']
    ∧ ((['a', 'l', 'i'] = ['a', 'l', 'i'] ∧ ['b', 'o', 'b'] = ['b', 'o', 'b'])
      ∨ (['a', 'l', 'i'] = ['b', 'o', 'b'] ∧ ['b', 'o', 'b'] = ['a', 'l', 'i'])) :=
  ⟨C9_chatId_commutative_collision_free.1 ['b', 'o', 'b'] ['a', 'l', 'i'],
    C9_chatId_commutative_collision_free.2 ['a', 'l', 'i'] ['b', 'o', 'b']
      ['a', 'l', 'i'] ['b', 'o', 'b'] (by decide) (by decide) (by decide) (by decide)
      (by decide)⟩

/-- C10: `createChatLink` sanitizes both usernames to the restricted
class, registers nothing (returns `undefined`) when either sanitizes to
empty, and therefore identifies raw usernames that differ only in
removed characters. -/
theorem C10_sanitize_before_chatId :
    (∀ u : List Char, (sanitizeForChatId u).Sublist u
      ∧ ∀ c ∈ sanitizeForChatId u, isSafeChar c = true)
    ∧ (∀ cu pu : List Char, sanitizeForChatId cu = [] ∨ sanitizeForChatId pu = [] →
        createChatLink cu pu = none)
    ∧ (∀ a a2 b b2 : List Char, sanitizeForChatId a = sanitizeForChatId a2 →
        sanitizeForChatId b = sanitizeForChatId b2 →
        createChatLink a b = createChatLink a2 b2) := by
  refine ⟨?_, ?_, ?_⟩
  · intro u
    exact ⟨List.filter_sublist u, fun c hc => (List.mem_filter.mp hc).2⟩
  · intro cu pu h
    rcases h with h | h <;> simp [createChatLink, h]
  · intro a a2 b b2 h1 h2
    simp only [createChatLink, h1, h2]

/-- Witness for C10: a username with stripped illegal characters links
to the same channel as its sanitized form, and an all-illegal username
creates nothing. -/
theorem C10_sanitize_before_chatId_witness :
    createChatLink ['a', '!', 'l'] ['b', 'o', 'b'] = createChatLink ['a', 'l'] ['b', 'o', 'b']
    ∧ createChatLink ['!', '@'] ['b', 'o', 'b'] = none :=
  ⟨C10_sanitize_before_chatId.2.2 ['a', '!', 'l'] ['a', 'l'] ['b', 'o', 'b'] ['b', 'o', 'b']
      (by decide) (by decide),
    C10_sanitize_before_chatId.2.1 ['!', '@'] ['b', 'o', 'b'] (Or.inl (by decide))⟩

end DChat
